import Mathlib

/-!
Verification of the consultant-project matcher against its specification.

The repository splits into a React frontend (provided in the sources) and a
FastAPI backend (the matching core: query normalizer, scorer, ranker, team
assembler), which is not among the provided source files.  The frontend is
embedded directly from the TypeScript sources; the matching-core components
are modelled from the specification text, as noted on each definition.
-/

namespace Matcher

/-! ## Data model

`Consultant` is embedded from `frontend/src/types/consultant.ts`:

```
export interface Consultant {
  id?: string;
  name: string;
  skills: string[];
  availability: "available" | "busy" | "unavailable" | string;
  matchScore?: number;
  experience?: string;
  hasResume?: boolean;
  resumeId?: string;
}
```

Optional TypeScript fields (`id?`, `matchScore?`, `experience?`, `hasResume?`,
`resumeId?`) become `Option`; the numeric `matchScore` is modelled as a
rational. -/
structure Consultant where
  id : Option String
  name : String
  skills : List String
  availability : String
  matchScore : Option ℚ
  experience : Option String
  hasResume : Option Bool
  resumeId : Option String
deriving DecidableEq

/-- A chat turn, from `ChatMessage` in the frontend API layer:
`{ role: "user" | "assistant", content: string }`. -/
structure ChatMessage where
  role : String
  content : String
deriving DecidableEq

/-- A structured role specification (title plus required skills), as produced
by the elicitation dialogue and consumed by `onComplete` / the team pipeline. -/
structure RoleSpec where
  title : String
  skills : List String
deriving DecidableEq

/-- The response of `sendChatMessage` as consumed by `ChatInterface.handleSend`:
`{ content, isComplete, roles }` where `roles` may be absent.  JavaScript
truthiness of `response.roles` is `Option.isSome` (note that an empty array is
truthy). -/
structure ChatResponse where
  content : String
  isComplete : Bool
  roles : Option (List RoleSpec)
deriving DecidableEq

/-- Whitespace (space, tab, newline, carriage return), used both by the
embedding of JavaScript's `String.prototype.trim` and by the normalizer's
canonicalization. -/
def isWsChar (c : Char) : Bool :=
  c.toNat = 32 || c.toNat = 9 || c.toNat = 10 || c.toNat = 13

/-- Embedding of JavaScript's `String.prototype.trim`: drops leading and
trailing whitespace. -/
def strTrim (s : String) : String :=
  ⟨((s.data.dropWhile isWsChar).reverse.dropWhile isWsChar).reverse⟩

/-- The component state of `ChatInterface` that `handleSend` reads and writes:
the message list, the input box, the loading flag, and — standing for the
`onComplete(response.roles)` callback that navigates to the results page —
the roles delivered on completion (`none` while the dialogue is still
`GATHERING`). -/
structure ChatState where
  messages : List ChatMessage
  input : String
  loading : Bool
  completedRoles : Option (List RoleSpec)
deriving DecidableEq

/-- Embedding of `ChatInterface.handleSend`.  The outcome of the awaited
`sendChatMessage(newMessages)` call is passed explicitly (`Except` models the
thrown/returned promise outcome):

```
const handleSend = async () => {
  if (!input.trim() || loading) return;
  const userMessage = { role: "user", content: input.trim() };
  const newMessages = [...messages, userMessage];
  setMessages(newMessages); setInput(""); setLoading(true);
  try {
    const response = await sendChatMessage(newMessages);
    const assistantMessage = { role: "assistant", content: response.content };
    setMessages([...newMessages, assistantMessage]);
    if (response.isComplete && response.roles) {
      setTimeout(() => { onComplete(response.roles); }, ...);
    }
  } catch (error) {
    const errorMessage = { role: "assistant",
      content: `Error: ...` };
    setMessages([...newMessages, errorMessage]);
  } finally { setLoading(false); }
};
``` -/
def handleSend (s : ChatState) (result : Except String ChatResponse) : ChatState :=
  if strTrim s.input = "" ∨ s.loading then s
  else
    let userMessage : ChatMessage := ⟨"user", strTrim s.input⟩
    let newMessages := s.messages ++ [userMessage]
    match result with
    | .ok response =>
      let assistantMessage : ChatMessage := ⟨"assistant", response.content⟩
      { messages := newMessages ++ [assistantMessage]
        input := ""
        loading := false
        completedRoles :=
          if response.isComplete ∧ response.roles.isSome then response.roles
          else s.completedRoles }
    | .error e =>
      { messages := newMessages ++ [⟨"assistant", "Error: " ++ e⟩]
        input := ""
        loading := false
        completedRoles := s.completedRoles }

/-! ## Project description page

Embedded from `ProjectDescriptionPage` (`handlePost`, the `textarea` with
`maxLength={5000}`, and the Post button's `disabled` condition). -/

/-- The page constant `const maxCharacters = 5000;`. -/
def maxCharacters : Nat := 5000

/-- The `textarea` carries `maxLength={maxCharacters}`; the browser caps the
controlled value at that many characters, so each change event installs the
new text truncated to the bound. -/
def textareaChange (v : String) : String :=
  ⟨v.data.take maxCharacters⟩

/-- The description state reached after a sequence of change events, starting
from `useState("")`.  Each event replaces the value wholesale. -/
def pageDescription (inputs : List String) : String :=
  inputs.foldl (fun _ v => textareaChange v) ""

/-- Embedding of `handlePost`: posts (navigates to `/results` with the description) only
when `description.trim()` is truthy; otherwise it is a no-op:

```
const handlePost = () => {
  if (description.trim()) {
    navigate("/results", { state: { projectDescription: description } });
  }
};
``` -/
def handlePost (description : String) : Option String :=
  if strTrim description = "" then none else some description

/-! ## Query Normalizer

Modelled from the spec: the backend matching core (`backend/main.py`) is not
among the provided source files; §4.1 of the spec defines the Query
Normalizer, whose canonical form is lower-cased, whitespace-collapsed text
plus keyword tokens (stopwords removed, deduplicated), failing with
`InvalidQuery` exactly on empty or over-long input.  Lower-casing is ASCII
case-folding; whitespace is space, tab, newline, carriage return. -/

/-- The maximal whitespace-free non-empty segments of a character list. -/
def wordsChars (l : List Char) : List (List Char) :=
  (l.splitOnP isWsChar).filter (fun w => decide (w ≠ []))

/-- Joins words with single spaces (no leading or trailing space). -/
def unwords : List (List Char) → List Char
  | [] => []
  | [w] => w
  | w :: ws => w ++ ' ' :: unwords ws

/-- Lower-cased, whitespace-collapsed text. -/
def canonChars (l : List Char) : List Char :=
  unwords (wordsChars (l.map Char.toLower))

/-- Modelled from the spec: the canonical text form of a raw query. -/
def canonicalText (s : String) : String :=
  ⟨canonChars s.data⟩

/-- Modelled from the spec: the stopword list used for keyword extraction
(the exact set is an implementation choice documented here). -/
def stopwords : List String :=
  ["a", "an", "and", "are", "for", "in", "is", "of", "on", "or", "the",
   "to", "we", "with", "need"]

/-- Modelled from the spec: keyword tokens of a query — lower-cased words,
stopwords removed, deduplicated. -/
def keywordTokens (s : String) : List String :=
  (((wordsChars (s.data.map Char.toLower)).map String.mk).filter
    (fun w => !(stopwords.contains w))).dedup

/-- Canonical query representation (§4.1): cleaned text plus keyword set. -/
structure NormalizedQuery where
  text : String
  tokens : List String
deriving DecidableEq

/-- The error taxonomy entry relevant to the normalizer boundary (§7). -/
inductive MatchError where
  | invalidQuery
deriving DecidableEq

/-- The length bound at the query boundary (≤ 5000 characters, §4.1). -/
def lengthBound : Nat := 5000

/-- Modelled from the spec: the Query Normalizer.  Fails with `InvalidQuery`
exactly when the input is empty or exceeds the length bound; otherwise
returns the canonical form.  It is a pure function, so it has no side
effects. -/
def normalizeQuery (s : String) : Except MatchError NormalizedQuery :=
  if s = "" ∨ lengthBound < s.length then .error .invalidQuery
  else .ok ⟨canonicalText s, keywordTokens s⟩

/-! ## Scorer

Modelled from the spec (§4.2): composite score is a weighted sum of a
semantic component (supplied by the Profile Store Adapter, clamped to
`[0,1]`), a structured skill-overlap component (saturating sum, exact
case-insensitive match worth more than substring match), and an availability
weight.  Weights are the spec's stated defaults: 0.5, 0.35, 0.15.  A
human-readable reason is emitted for every non-zero contribution. -/

/-- ASCII-lower-cased copy of a string, for case-insensitive skill matching. -/
def lowerString (s : String) : String :=
  ⟨s.data.map Char.toLower⟩

/-- A query keyword matches a skill exactly (case-insensitive). -/
def exactSkillMatch (skills : List String) (kw : String) : Bool :=
  skills.any (fun sk => lowerString sk == kw)

/-- A query keyword matches a skill fuzzily: one is a substring of the other
after case-folding (e.g. "react" inside "react.js"). -/
def subSkillMatch (skills : List String) (kw : String) : Bool :=
  skills.any (fun sk =>
    decide (kw.data <:+: (lowerString sk).data) ||
    decide ((lowerString sk).data <:+: kw.data))

/-- Fixed increment contributed by one keyword: exact match 1/5, substring
match 1/10, otherwise nothing. -/
def kwBonus (skills : List String) (kw : String) : ℚ :=
  if exactSkillMatch skills kw then 1/5
  else if subSkillMatch skills kw then 1/10
  else 0

/-- The reason emitted for one keyword, present exactly when the keyword
contributes a non-zero increment. -/
def kwReason (skills : List String) (kw : String) : Option String :=
  if exactSkillMatch skills kw then some ("skill match: " ++ kw)
  else if subSkillMatch skills kw then some ("fuzzy skill match: " ++ kw)
  else none

/-- Saturating sum of keyword increments, capped at 1. -/
def structuredScore (skills : List String) (kws : List String) : ℚ :=
  min 1 ((kws.map (kwBonus skills)).sum)

/-- Reasons for all matching keywords. -/
def skillReasons (skills : List String) (kws : List String) : List String :=
  kws.filterMap (kwReason skills)

/-- Availability policy: "available" full weight, "busy" half, "unavailable"
zero; any other string is treated like "busy". -/
def availabilityWeight (a : String) : ℚ :=
  if a = "available" then 1
  else if a = "busy" then 1/2
  else if a = "unavailable" then 0
  else 1/2

/-- Clamps a rational into `[0,1]`. -/
def clamp01 (x : ℚ) : ℚ := max 0 (min 1 x)

/-- A consultant reference paired with a composite score and its explanatory
reasons (§3). -/
structure ScoredCandidate where
  consultantId : String
  score : ℚ
  reasons : List String
deriving DecidableEq

/-- Modelled from the spec: the Scorer.  Takes the adapter-supplied semantic
similarity, the query keywords, and the validated consultant fields the
score depends on. -/
def scoreConsultant (semantic : ℚ) (kws : List String) (cid : String)
    (skills : List String) (availability : String) : ScoredCandidate :=
  let sem := clamp01 semantic
  let structured := structuredScore skills kws
  let avail := availabilityWeight availability
  let score := (1/2) * sem + (7/20) * structured + (3/20) * avail
  let reasons :=
    (if 0 < sem then ["semantic similarity"] else [])
      ++ skillReasons skills kws
      ++ (if 0 < avail then ["availability: " ++ availability] else [])
  ⟨cid, score, reasons⟩

/-! ## Ranker

Modelled from the spec (§4.3): deduplicate by consultant id (highest score
wins, earliest entry among equal scores), then sort descending by score with
ties broken by original insertion order, then truncate to `K`. -/

/-- The ranking order on index-annotated candidates: higher score first,
ties broken by the original (insertion) index. -/
def scoreRel (a b : Nat × ScoredCandidate) : Prop :=
  b.2.score < a.2.score ∨ (a.2.score = b.2.score ∧ a.1 ≤ b.1)

instance : DecidableRel scoreRel := fun a b => by
  unfold scoreRel; infer_instance

/-- The indexed entry `(i, c)` survives deduplication: every entry with the
same consultant id has a lower score, or an equal score and a position no
earlier than `i`. -/
def keepsBest (cands : List ScoredCandidate) (i : Nat) (c : ScoredCandidate) : Prop :=
  ∀ jd ∈ cands.enum, jd.2.consultantId = c.consultantId →
    jd.2.score < c.score ∨ (jd.2.score = c.score ∧ i ≤ jd.1)

instance (cands : List ScoredCandidate) (i : Nat) (c : ScoredCandidate) :
    Decidable (keepsBest cands i c) := by
  unfold keepsBest; exact List.decidableBAll _ _

/-- Deduplicated, index-annotated candidates in original order. -/
def survivors (cands : List ScoredCandidate) : List (Nat × ScoredCandidate) :=
  cands.enum.filter (fun ic => decide (keepsBest cands ic.1 ic.2))

/-- Modelled from the spec: the Ranker pipeline on index-annotated
candidates — deduplicate, stable-sort by `scoreRel`, truncate to `K`. -/
def rankIndexed (K : Nat) (cands : List ScoredCandidate) :
    List (Nat × ScoredCandidate) :=
  (List.insertionSort scoreRel (survivors cands)).take K

/-- Modelled from the spec: the Ranker — the top-`K` result list. -/
def rankCandidates (K : Nat) (cands : List ScoredCandidate) : List ScoredCandidate :=
  (rankIndexed K cands).map Prod.snd

/-! ## Team Assembler

Modelled from the spec (§4.5): one ranked candidate list per role (the
output of the per-role Scorer+Ranker pipeline), reconciled in role order:
each role takes its best not-yet-assigned candidate; if every candidate of a
role is already assigned, the repeat assignment of its top candidate is
permitted and flagged; a role with an empty pool gets an explicit
no-match. -/

/-- One role's outcome: assigned consultant (if any), a flag marking a
permitted repeat assignment, and runner-up alternates. -/
structure RoleAssignment where
  roleTitle : String
  assigned : Option ScoredCandidate
  repeatFlag : Bool
  alternates : List ScoredCandidate
deriving DecidableEq

/-- The best candidate of a role's ranked pool whose consultant is not yet
assigned. -/
def pickCandidate (acc : List String) (cs : List ScoredCandidate) :
    Option ScoredCandidate :=
  cs.find? (fun c => !(acc.contains c.consultantId))

/-- One role's assignment given the ids already taken: the best unassigned
candidate if one exists; otherwise the top candidate again, flagged as a
permitted repeat (or an explicit no-match on an empty pool). -/
def roleEntry (acc : List String) (role : RoleSpec) (cs : List ScoredCandidate) :
    RoleAssignment :=
  match pickCandidate acc cs with
  | some c =>
      ⟨role.title, some c, false,
        (cs.filter (fun d => d.consultantId != c.consultantId)).take 3⟩
  | none =>
      match cs with
      | [] => ⟨role.title, none, false, []⟩
      | c :: _ => ⟨role.title, some c, true, []⟩

/-- The assigned-id list after one role: a fresh assignment records its id;
a repeat or a no-match records nothing (a repeated candidate's id is already
present). -/
def nextAcc (acc : List String) (cs : List ScoredCandidate) : List String :=
  match pickCandidate acc cs with
  | some c => c.consultantId :: acc
  | none => acc

/-- Modelled from the spec: the reconciliation pass of the Team Assembler.
`acc` is the list of consultant ids already assigned to earlier roles. -/
def assembleGo (acc : List String) :
    List (RoleSpec × List ScoredCandidate) → List RoleAssignment
  | [] => []
  | (role, cs) :: rest => roleEntry acc role cs :: assembleGo (nextAcc acc cs) rest

/-- Modelled from the spec: the Team Assembler, starting with no consultant
assigned. -/
def assembleTeam (rankings : List (RoleSpec × List ScoredCandidate)) :
    List RoleAssignment :=
  assembleGo [] rankings

/-- The consultant ids taken by the non-flagged assignments of a result
list. -/
def unflaggedIds (out : List RoleAssignment) : List String :=
  out.filterMap (fun e =>
    if e.repeatFlag then none
    else e.assigned.map (fun d => d.consultantId))

end Matcher

namespace Matcher

lemma char_toNat_ofNat {n : Nat} (h : n < 55296) : (Char.ofNat n).toNat = n := by
  unfold Char.ofNat
  rw [dif_pos (Or.inl h)]
  rfl

lemma toLower_toNat (c : Char) :
    c.toLower.toNat = if 65 ≤ c.toNat ∧ c.toNat ≤ 90 then c.toNat + 32 else c.toNat := by
  unfold Char.toLower
  by_cases h : 65 ≤ c.toNat ∧ c.toNat ≤ 90
  · rw [if_pos ⟨h.1, h.2⟩, if_pos h]
    exact char_toNat_ofNat (by omega)
  · rw [if_neg ?_, if_neg h]
    exact fun hc => h ⟨hc.1, hc.2⟩

lemma toLower_eq_self (d : Char) (hd : ¬(65 ≤ d.toNat ∧ d.toNat ≤ 90)) :
    d.toLower = d := by
  unfold Char.toLower
  rw [if_neg ?_]
  exact fun hc => hd ⟨hc.1, hc.2⟩

lemma toLower_notUpper (c : Char) :
    ¬(65 ≤ c.toLower.toNat ∧ c.toLower.toNat ≤ 90) := by
  rw [toLower_toNat]
  by_cases hc : 65 ≤ c.toNat ∧ c.toNat ≤ 90
  · rw [if_pos hc]; omega
  · rw [if_neg hc]; omega

lemma toLower_toLower (c : Char) : c.toLower.toLower = c.toLower :=
  toLower_eq_self _ (toLower_notUpper c)

lemma isWsChar_toLower (c : Char) : isWsChar c.toLower = isWsChar c := by
  have ht := toLower_toNat c
  by_cases hc : 65 ≤ c.toNat ∧ c.toNat ≤ 90
  · rw [if_pos hc] at ht
    have ha : isWsChar c.toLower = false := by
      simp only [isWsChar, ht, Bool.or_eq_false_iff, decide_eq_false_iff_not]
      omega
    have hb : isWsChar c = false := by
      simp only [isWsChar, Bool.or_eq_false_iff, decide_eq_false_iff_not]
      omega
    rw [ha, hb]
  · rw [if_neg hc] at ht
    simp only [isWsChar, ht]

lemma isWsChar_space : isWsChar ' ' = true := by decide

lemma toLower_space : Char.toLower ' ' = ' ' := by
  apply toLower_eq_self
  decide

lemma mem_splitOnP_not_p {α : Type} {p : α → Bool} :
    ∀ (l : List α) (w : List α), w ∈ l.splitOnP p → ∀ c ∈ w, ¬p c := by
  intro l
  induction l with
  | nil =>
    intro w hw c hc
    simp only [List.splitOnP_nil, List.mem_singleton] at hw
    subst hw
    exact absurd hc (List.not_mem_nil c)
  | cons x xs ih =>
    intro w hw c hc
    rw [List.splitOnP_cons] at hw
    by_cases hx : p x
    · rw [if_pos hx] at hw
      rcases List.mem_cons.mp hw with h | h
      · subst h; exact absurd hc (List.not_mem_nil c)
      · exact ih w h c hc
    · rw [if_neg hx] at hw
      cases hsp : xs.splitOnP p with
      | nil => exact absurd hsp (List.splitOnP_ne_nil p xs)
      | cons h t =>
        rw [hsp, List.modifyHead_cons] at hw
        rcases List.mem_cons.mp hw with hw | hw
        · subst hw
          rcases List.mem_cons.mp hc with hc | hc
          · subst hc; exact hx
          · exact ih h (hsp ▸ List.mem_cons_self h t) c hc
        · exact ih w (hsp ▸ List.mem_cons_of_mem h hw) c hc

lemma mem_splitOnP_mem {α : Type} {p : α → Bool} :
    ∀ (l : List α) (w : List α), w ∈ l.splitOnP p → ∀ c ∈ w, c ∈ l := by
  intro l
  induction l with
  | nil =>
    intro w hw c hc
    simp only [List.splitOnP_nil, List.mem_singleton] at hw
    subst hw
    exact absurd hc (List.not_mem_nil c)
  | cons x xs ih =>
    intro w hw c hc
    rw [List.splitOnP_cons] at hw
    by_cases hx : p x
    · rw [if_pos hx] at hw
      rcases List.mem_cons.mp hw with h | h
      · subst h; exact absurd hc (List.not_mem_nil c)
      · exact List.mem_cons_of_mem x (ih w h c hc)
    · rw [if_neg hx] at hw
      cases hsp : xs.splitOnP p with
      | nil => exact absurd hsp (List.splitOnP_ne_nil p xs)
      | cons h t =>
        rw [hsp, List.modifyHead_cons] at hw
        rcases List.mem_cons.mp hw with hw | hw
        · subst hw
          rcases List.mem_cons.mp hc with hc | hc
          · subst hc; exact List.mem_cons_self _ _
          · exact List.mem_cons_of_mem x (ih h (hsp ▸ List.mem_cons_self h t) c hc)
        · exact List.mem_cons_of_mem x (ih w (hsp ▸ List.mem_cons_of_mem h hw) c hc)

end Matcher

namespace Matcher

lemma unwords_cons_cons (w x : List Char) (t : List (List Char)) :
    unwords (w :: x :: t) = w ++ ' ' :: unwords (x :: t) := rfl

lemma length_unwords_cons (w : List Char) (L : List (List Char)) :
    (unwords (w :: L)).length =
      w.length + (if L = [] then 0 else 1 + (unwords L).length) := by
  cases L with
  | nil => simp [unwords]
  | cons x t =>
    rw [unwords_cons_cons, if_neg (List.cons_ne_nil x t)]
    simp [Nat.add_comm, Nat.add_assoc, Nat.add_left_comm]

lemma wordsChars_unwords :
    ∀ ws : List (List Char), (∀ w ∈ ws, w ≠ []) →
      (∀ w ∈ ws, ∀ c ∈ w, isWsChar c = false) →
      wordsChars (unwords ws) = ws := by
  intro ws
  induction ws with
  | nil => intro _ _; rfl
  | cons w t ih =>
    intro hne hnw
    have hwne : w ≠ [] := hne w (List.mem_cons_self _ _)
    have hwno : ∀ c ∈ w, ¬isWsChar c := by
      intro c hc
      rw [hnw w (List.mem_cons_self _ _) c hc]
      exact Bool.false_ne_true
    cases t with
    | nil =>
      show wordsChars w = [w]
      unfold wordsChars
      rw [List.splitOnP_eq_single _ _ hwno]
      simp [hwne]
    | cons x t' =>
      rw [unwords_cons_cons]
      unfold wordsChars
      rw [List.splitOnP_first _ _ hwno ' ' isWsChar_space]
      have ih2 := ih (fun u hu => hne u (List.mem_cons_of_mem w hu))
        (fun u hu => hnw u (List.mem_cons_of_mem w hu))
      unfold wordsChars at ih2
      simp only [List.filter_cons, decide_eq_true_eq]
      rw [ih2, if_pos hwne]

end Matcher

namespace Matcher

lemma unwords_splitOnP_length :
    ∀ l : List Char, (unwords (l.splitOnP isWsChar)).length = l.length := by
  intro l
  induction l with
  | nil => rfl
  | cons c cs ih =>
    rw [List.splitOnP_cons]
    cases hsp : cs.splitOnP isWsChar with
    | nil => exact absurd hsp (List.splitOnP_ne_nil _ cs)
    | cons h t =>
      rw [hsp] at ih
      by_cases hc : isWsChar c
      · rw [if_pos hc, unwords_cons_cons]
        simp only [List.length_cons, List.length_append, List.length_nil]
        omega
      · rw [if_neg hc, List.modifyHead_cons]
        cases t with
        | nil =>
          show (unwords [c :: h]).length = cs.length + 1
          simp only [unwords, List.length_cons]
          simp only [unwords] at ih
          omega
        | cons x t' =>
          rw [unwords_cons_cons]
          rw [unwords_cons_cons] at ih
          simp only [List.length_append, List.length_cons] at ih ⊢
          omega

lemma unwords_filter_length :
    ∀ ss : List (List Char),
      (unwords (ss.filter (fun w => decide (w ≠ [])))).length ≤ (unwords ss).length := by
  intro ss
  induction ss with
  | nil => exact Nat.le_refl 0
  | cons w t ih =>
    rw [List.filter_cons]
    by_cases hw : w ≠ []
    · rw [if_pos (by simpa using hw)]
      rw [length_unwords_cons, length_unwords_cons]
      by_cases ht : t.filter (fun w => decide (w ≠ [])) = []
      · rw [if_pos ht]
        by_cases ht2 : t = []
        · rw [if_pos ht2]
        · rw [if_neg ht2]; omega
      · rw [if_neg ht]
        have ht2 : t ≠ [] := by
          intro h; subst h; simp at ht
        rw [if_neg ht2]
        omega
    · rw [if_neg (by simpa using hw)]
      have hw2 : w = [] := not_not.mp hw
      subst hw2
      cases t with
      | nil => exact Nat.le_refl 0
      | cons x t' =>
        rw [unwords_cons_cons]
        simp only [List.length_append, List.length_nil, List.length_cons]
        omega

lemma canonChars_length (l : List Char) : (canonChars l).length ≤ l.length := by
  unfold canonChars wordsChars
  calc (unwords (((l.map Char.toLower).splitOnP isWsChar).filter
          (fun w => decide (w ≠ [])))).length
      ≤ (unwords ((l.map Char.toLower).splitOnP isWsChar)).length :=
        unwords_filter_length _
    _ = (l.map Char.toLower).length := unwords_splitOnP_length _
    _ = l.length := List.length_map _ _

end Matcher

namespace Matcher

lemma map_fixed_of_forall {α : Type} (f : α → α) :
    ∀ w : List α, (∀ c ∈ w, f c = c) → w.map f = w := by
  intro w
  induction w with
  | nil => intro _; rfl
  | cons c cs ihw =>
    intro hw
    rw [List.map_cons, hw c (List.mem_cons_self _ _),
      ihw (fun d hd => hw d (List.mem_cons_of_mem c hd))]

lemma map_toLower_unwords :
    ∀ ws : List (List Char), (∀ w ∈ ws, ∀ c ∈ w, c.toLower = c) →
      (unwords ws).map Char.toLower = unwords ws := by
  intro ws
  induction ws with
  | nil => intro _; rfl
  | cons w t ih =>
    intro hws
    have hw : ∀ c ∈ w, c.toLower = c := hws w (List.mem_cons_self _ _)
    have hmapw : w.map Char.toLower = w := map_fixed_of_forall _ w hw
    cases t with
    | nil => exact hmapw
    | cons x t' =>
      rw [unwords_cons_cons, List.map_append, hmapw, List.map_cons, toLower_space]
      rw [ih (fun u hu => hws u (List.mem_cons_of_mem w hu))]

lemma wordsChars_lower_fixed (l : List Char) :
    ∀ w ∈ wordsChars (l.map Char.toLower), ∀ c ∈ w, c.toLower = c := by
  intro w hw c hc
  have hmem : c ∈ l.map Char.toLower :=
    mem_splitOnP_mem _ w (List.mem_of_mem_filter hw) c hc
  rcases List.mem_map.mp hmem with ⟨d, _, hd⟩
  rw [← hd]
  exact toLower_toLower d

lemma wordsChars_nonempty (l : List Char) :
    ∀ w ∈ wordsChars l, w ≠ [] := by
  intro w hw
  have := List.of_mem_filter hw
  simpa using this

lemma wordsChars_no_ws (l : List Char) :
    ∀ w ∈ wordsChars l, ∀ c ∈ w, isWsChar c = false := by
  intro w hw c hc
  have := mem_splitOnP_not_p l w (List.mem_of_mem_filter hw) c hc
  simpa using this

lemma map_toLower_canonChars (l : List Char) :
    (canonChars l).map Char.toLower = canonChars l :=
  map_toLower_unwords _ (wordsChars_lower_fixed l)

lemma wordsChars_canonChars (l : List Char) :
    wordsChars (canonChars l) = wordsChars (l.map Char.toLower) :=
  wordsChars_unwords _ (wordsChars_nonempty _) (wordsChars_no_ws _)

lemma canonChars_idem (l : List Char) : canonChars (canonChars l) = canonChars l := by
  show unwords (wordsChars ((canonChars l).map Char.toLower)) = canonChars l
  rw [map_toLower_canonChars, wordsChars_canonChars]
  rfl

lemma canonicalText_idem (s : String) :
    canonicalText (canonicalText s) = canonicalText s := by
  show (⟨canonChars (canonChars s.data)⟩ : String) = ⟨canonChars s.data⟩
  rw [canonChars_idem]

lemma keywordTokens_canonicalText (s : String) :
    keywordTokens (canonicalText s) = keywordTokens s := by
  unfold keywordTokens
  have h1 : (canonicalText s).data = canonChars s.data := rfl
  rw [h1, map_toLower_canonChars, wordsChars_canonChars]

lemma canonicalText_length (s : String) :
    (canonicalText s).length ≤ s.length := canonChars_length s.data

end Matcher

namespace Matcher

/-- C2: the Query Normalizer fails with `InvalidQuery` exactly when the raw
query text is empty or exceeds the 5000-character bound, and succeeds with
the canonical form on every other input.  (The normalizer is a pure
function, so it has no side effects.) -/
theorem normalizeQuery_invalid_iff (s : String) :
    (normalizeQuery s = .error .invalidQuery ↔ s = "" ∨ lengthBound < s.length) ∧
    (s ≠ "" → s.length ≤ lengthBound →
      normalizeQuery s = .ok ⟨canonicalText s, keywordTokens s⟩) := by
  unfold normalizeQuery
  by_cases h : s = "" ∨ lengthBound < s.length
  · rw [if_pos h]
    exact ⟨⟨fun _ => h, fun _ => rfl⟩,
      fun h1 h2 => absurd h (by push_neg; exact ⟨h1, by omega⟩)⟩
  · rw [if_neg h]
    exact ⟨⟨fun hc => absurd hc (fun hc => Except.noConfusion hc), fun hc => absurd hc h⟩,
      fun _ _ => rfl⟩

/-- C2 witness: the normalizer rejects the empty string and accepts a
concrete well-formed query. -/
theorem normalizeQuery_invalid_iff_witness :
    normalizeQuery "" = .error .invalidQuery ∧
      normalizeQuery "Need a React developer" =
        .ok ⟨"need a react developer", ["react", "developer"]⟩ :=
  ⟨(normalizeQuery_invalid_iff "").1.mpr (Or.inl rfl),
    ((normalizeQuery_invalid_iff "Need a React developer").2
      (by decide) (by decide)).trans (by rfl)⟩

/-- C6: the Query Normalizer is idempotent — normalizing the canonical text
of a successful normalization returns it unchanged. -/
theorem normalizeQuery_idempotent (s : String) (q : NormalizedQuery)
    (hok : normalizeQuery s = .ok q) (hne : q.text ≠ "") :
    normalizeQuery q.text = .ok q := by
  unfold normalizeQuery at hok
  by_cases h : s = "" ∨ lengthBound < s.length
  · rw [if_pos h] at hok
    exact absurd hok (fun hc => Except.noConfusion hc)
  · rw [if_neg h] at hok
    have hq : q = ⟨canonicalText s, keywordTokens s⟩ :=
      (Except.ok.injEq _ _ ▸ hok).symm
    subst hq
    have hlen : (canonicalText s).length ≤ lengthBound := by
      push_neg at h
      exact Nat.le_trans (canonicalText_length s) (by omega)
    unfold normalizeQuery
    rw [if_neg (by push_neg; exact ⟨hne, Nat.not_lt.mp (fun hlt => absurd hlen (by simpa using Nat.not_le.mpr hlt))⟩)]
    rw [canonicalText_idem, keywordTokens_canonicalText]

/-- C6 witness: idempotence at a concrete query. -/
theorem normalizeQuery_idempotent_witness :
    normalizeQuery "react dev" = .ok ⟨"react dev", ["react", "dev"]⟩ :=
  normalizeQuery_idempotent "React Dev" ⟨"react dev", ["react", "dev"]⟩
    (by rfl) (by decide)

end Matcher

namespace Matcher

/-- C1 counterexample: `handleSend` transitions to `COMPLETE` (delivers the
roles to `onComplete`) even though the extraction's only RoleSpec has an
empty title and zero required skills — the completeness invariant is not
checked. -/
theorem handleSend_completes_on_incomplete_extraction :
    (RoleSpec.mk "" []).title = "" ∧ (RoleSpec.mk "" []).skills = [] ∧
      (handleSend (ChatState.mk [ChatMessage.mk "assistant" "Hi!"] "a web shop" false none)
          (Except.ok (ChatResponse.mk "Done!" true (some [RoleSpec.mk "" []])))).completedRoles
        = some [RoleSpec.mk "" []] := by
  decide

/-- C1 (amended): on a successful response to a non-blank, non-loading turn
of a still-gathering dialogue, the `COMPLETE` transition fires exactly when
the response signals `isComplete` and carries a `roles` value — the contents
of the RoleSpecs (title, skills) are not validated, and the delivered roles
are whatever the response carried. -/
theorem handleSend_complete_iff (s : ChatState) (resp : ChatResponse)
    (hin : strTrim s.input ≠ "") (hld : s.loading = false)
    (hgath : s.completedRoles = none) :
    ((handleSend s (.ok resp)).completedRoles ≠ none ↔
      resp.isComplete = true ∧ resp.roles.isSome) ∧
    ((handleSend s (.ok resp)).completedRoles ≠ none →
      (handleSend s (.ok resp)).completedRoles = resp.roles) := by
  unfold handleSend
  rw [if_neg (by rw [hld]; simpa using hin)]
  cases hr : resp.roles with
  | none => simp [hr, hgath]
  | some rs =>
    by_cases hic : resp.isComplete = true
    · simp [hr, hic]
    · simp [hr, hic, hgath]

/-- C1 witness: the amended transition rule at a concrete turn. -/
theorem handleSend_complete_iff_witness :
    (handleSend (ChatState.mk [] "a web shop" false none)
        (Except.ok (ChatResponse.mk "Done!" true (some [RoleSpec.mk "Frontend Dev" ["React"]])))).completedRoles
      ≠ none :=
  (handleSend_complete_iff (ChatState.mk [] "a web shop" false none)
      (ChatResponse.mk "Done!" true (some [RoleSpec.mk "Frontend Dev" ["React"]]))
      (by decide) rfl rfl).1.mpr ⟨rfl, rfl⟩

/-- C7: when the language-generation call fails, `handleSend` reports the
error (appends an "Error: …" assistant message) and does not transition:
`completedRoles` is unchanged, and in particular a gathering dialogue stays
in `GATHERING`. -/
theorem handleSend_error_no_transition (s : ChatState) (e : String)
    (hin : strTrim s.input ≠ "") (hld : s.loading = false) :
    (handleSend s (.error e)).completedRoles = s.completedRoles ∧
    (handleSend s (.error e)).messages =
      s.messages ++ [ChatMessage.mk "user" (strTrim s.input),
        ChatMessage.mk "assistant" ("Error: " ++ e)] ∧
    (s.completedRoles = none → (handleSend s (.error e)).completedRoles = none) := by
  unfold handleSend
  rw [if_neg (by rw [hld]; simpa using hin)]
  exact ⟨rfl, by simp, fun h => h ▸ rfl⟩

/-- C7 witness: the error path at a concrete turn. -/
theorem handleSend_error_no_transition_witness :
    (handleSend (ChatState.mk [] "a web shop" false none)
        (.error "UpstreamUnavailable")).completedRoles = none ∧
    (handleSend (ChatState.mk [] "a web shop" false none)
        (.error "UpstreamUnavailable")).messages =
      [ChatMessage.mk "user" "a web shop",
        ChatMessage.mk "assistant" "Error: UpstreamUnavailable"] :=
  ⟨(handleSend_error_no_transition (ChatState.mk [] "a web shop" false none)
      "UpstreamUnavailable" (by decide) rfl).1,
    ((handleSend_error_no_transition (ChatState.mk [] "a web shop" false none)
      "UpstreamUnavailable" (by decide) rfl).2.1).trans (by decide)⟩

/-- C8: the conversation history grows monotonically on every turn —
clarifying, completing, and error turns alike: the new history is the old
history plus appended messages, and a turn that passes the input guard
appends exactly the user turn followed by one response message. -/
theorem handleSend_history_monotone (s : ChatState) (r : Except String ChatResponse) :
    (∃ t, (handleSend s r).messages = s.messages ++ t) ∧
    (strTrim s.input ≠ "" → s.loading = false →
      ∃ m, (handleSend s r).messages =
        s.messages ++ [ChatMessage.mk "user" (strTrim s.input), m]) := by
  unfold handleSend
  by_cases hg : strTrim s.input = "" ∨ s.loading
  · rw [if_pos hg]
    exact ⟨⟨[], by simp⟩, fun h1 h2 => absurd hg (by
      rw [h2]; simpa using h1)⟩
  · rw [if_neg hg]
    cases r with
    | ok resp =>
      exact ⟨⟨[ChatMessage.mk "user" (strTrim s.input),
          ChatMessage.mk "assistant" resp.content], by simp⟩,
        fun _ _ => ⟨ChatMessage.mk "assistant" resp.content, by simp⟩⟩
    | error e =>
      exact ⟨⟨[ChatMessage.mk "user" (strTrim s.input),
          ChatMessage.mk "assistant" ("Error: " ++ e)], by simp⟩,
        fun _ _ => ⟨ChatMessage.mk "assistant" ("Error: " ++ e), by simp⟩⟩

/-- C8 witness: a concrete completing turn appends the user turn and the
response to the existing history. -/
theorem handleSend_history_monotone_witness :
    ∃ m, (handleSend (ChatState.mk [ChatMessage.mk "assistant" "Hi!"] "shop" false none)
        (Except.ok (ChatResponse.mk "Done!" true (some [])))).messages =
      [ChatMessage.mk "assistant" "Hi!"] ++ [ChatMessage.mk "user" "shop", m] :=
  (handleSend_history_monotone (ChatState.mk [ChatMessage.mk "assistant" "Hi!"] "shop" false none)
    (Except.ok (ChatResponse.mk "Done!" true (some [])))).2 (by decide) rfl

end Matcher

namespace Matcher

/-- C9 counterexample: the `Consultant` record shape declares `id` optional
(`id?: string`), so a well-typed record with no id exists — the id field is
not present on every record. -/
theorem consultant_id_missing_counterexample :
    (Consultant.mk none "Jane Doe" ["React"] "available" none none none none).id
      = none := rfl

/-- C9 (amended): the `Consultant` record carries name, skill set, and
availability as mandatory fields, but its identity `id` is optional —
records with and without an id are both representable. -/
theorem consultant_id_optional :
    (∃ c : Consultant, c.id = none) ∧ (∃ c : Consultant, c.id.isSome) :=
  ⟨⟨Consultant.mk none "Jane Doe" ["React"] "available" none none none none, rfl⟩,
    ⟨Consultant.mk (some "c1") "Ada" ["Python"] "busy" none none none none, rfl⟩⟩

lemma textareaChange_length (v : String) :
    (textareaChange v).length ≤ maxCharacters := by
  show (v.data.take maxCharacters).length ≤ maxCharacters
  rw [List.length_take]
  exact Nat.min_le_left _ _

lemma pageDescription_length (inputs : List String) :
    (pageDescription inputs).length ≤ maxCharacters := by
  unfold pageDescription
  have h : ∀ (l : List String) (s : String), s.length ≤ maxCharacters →
      (l.foldl (fun _ v => textareaChange v) s).length ≤ maxCharacters := by
    intro l
    induction l with
    | nil => intro s hs; exact hs
    | cons v t ih =>
      intro s _
      exact ih (textareaChange v) (textareaChange_length v)
  exact h inputs "" (by decide)

lemma strTrim_empty : strTrim "" = "" := rfl

/-- C10: any description reachable through the page's change events and
accepted by `handlePost` is non-blank (its trim is non-empty) and at most
5000 characters long, so the normalizer's `InvalidQuery` branch is
unreachable for UI-originated match requests — in particular whitespace-only
input is never submitted. -/
theorem handlePost_valid_query (inputs : List String) (d : String)
    (hpost : handlePost (pageDescription inputs) = some d) :
    strTrim d ≠ "" ∧ d.length ≤ maxCharacters ∧
      normalizeQuery d = .ok ⟨canonicalText d, keywordTokens d⟩ := by
  unfold handlePost at hpost
  by_cases hb : strTrim (pageDescription inputs) = ""
  · rw [if_pos hb] at hpost
    exact absurd hpost (fun h => Option.noConfusion h)
  · rw [if_neg hb] at hpost
    have hd : d = pageDescription inputs := (Option.some.injEq _ _ ▸ hpost).symm
    subst hd
    refine ⟨hb, pageDescription_length inputs, ?_⟩
    have hne : pageDescription inputs ≠ "" := by
      intro h
      rw [h, strTrim_empty] at hb
      exact hb rfl
    unfold normalizeQuery
    rw [if_neg ?_]
    push_neg
    refine ⟨hne, ?_⟩
    have h2 := pageDescription_length inputs
    unfold maxCharacters at h2
    unfold lengthBound
    exact h2

/-- C10 witness: a concrete UI interaction ending in a post. -/
theorem handlePost_valid_query_witness :
    strTrim " Build a web shop in React " ≠ "" ∧
      (" Build a web shop in React " : String).length ≤ maxCharacters ∧
      normalizeQuery " Build a web shop in React " =
        .ok ⟨canonicalText " Build a web shop in React ",
          keywordTokens " Build a web shop in React "⟩ :=
  handlePost_valid_query [" Build a web shop in React "]
    " Build a web shop in React " (by decide)

end Matcher

namespace Matcher

lemma clamp01_bounds (x : ℚ) : 0 ≤ clamp01 x ∧ clamp01 x ≤ 1 := by
  unfold clamp01
  constructor
  · exact le_max_left 0 _
  · rcases le_or_lt x 1 with h | h
    · rw [min_eq_right h]
      rcases le_or_lt 0 x with h2 | h2
      · rw [max_eq_right h2]; exact h
      · rw [max_eq_left h2.le]; exact zero_le_one
    · rw [min_eq_left h.le, max_eq_right zero_le_one]

lemma kwBonus_nonneg (skills : List String) (kw : String) :
    0 ≤ kwBonus skills kw := by
  unfold kwBonus
  by_cases h1 : exactSkillMatch skills kw
  · rw [if_pos h1]; norm_num
  · rw [if_neg h1]
    by_cases h2 : subSkillMatch skills kw
    · rw [if_pos h2]; norm_num
    · rw [if_neg h2]

lemma kwBonus_eq_zero_iff (skills : List String) (kw : String) :
    kwBonus skills kw = 0 ↔ kwReason skills kw = none := by
  unfold kwBonus kwReason
  by_cases h1 : exactSkillMatch skills kw
  · rw [if_pos h1, if_pos h1]
    constructor
    · intro h; norm_num at h
    · intro h; exact Option.noConfusion h
  · rw [if_neg h1, if_neg h1]
    by_cases h2 : subSkillMatch skills kw
    · rw [if_pos h2, if_pos h2]
      constructor
      · intro h; norm_num at h
      · intro h; exact Option.noConfusion h
    · rw [if_neg h2, if_neg h2]
      exact ⟨fun _ => rfl, fun _ => rfl⟩

lemma bonusSum_nonneg (skills : List String) (kws : List String) :
    0 ≤ (kws.map (kwBonus skills)).sum := by
  induction kws with
  | nil => exact le_refl 0
  | cons kw t ih =>
    rw [List.map_cons, List.sum_cons]
    have := kwBonus_nonneg skills kw
    linarith

lemma skillReasons_nil_iff (skills : List String) (kws : List String) :
    skillReasons skills kws = [] ↔ (kws.map (kwBonus skills)).sum = 0 := by
  induction kws with
  | nil => simp [skillReasons]
  | cons kw t ih =>
    rw [List.map_cons, List.sum_cons]
    unfold skillReasons
    rw [List.filterMap_cons]
    cases hr : kwReason skills kw with
    | none =>
      have hb : kwBonus skills kw = 0 := (kwBonus_eq_zero_iff skills kw).mpr hr
      rw [hb, zero_add]
      exact ih
    | some r =>
      constructor
      · intro h; exact List.noConfusion h
      · intro h
        have h1 := kwBonus_nonneg skills kw
        have h2 := bonusSum_nonneg skills t
        have hb : kwBonus skills kw = 0 := by linarith
        rw [(kwBonus_eq_zero_iff skills kw).mp hb] at hr
        exact Option.noConfusion hr

lemma structuredScore_bounds (skills : List String) (kws : List String) :
    0 ≤ structuredScore skills kws ∧ structuredScore skills kws ≤ 1 := by
  unfold structuredScore
  constructor
  · exact le_min zero_le_one (bonusSum_nonneg skills kws)
  · exact min_le_left _ _

lemma structuredScore_eq_zero_iff (skills : List String) (kws : List String) :
    structuredScore skills kws = 0 ↔ (kws.map (kwBonus skills)).sum = 0 := by
  unfold structuredScore
  have hs := bonusSum_nonneg skills kws
  rcases le_or_lt 1 ((kws.map (kwBonus skills)).sum) with h | h
  · rw [min_eq_left h]
    constructor
    · intro h0; norm_num at h0
    · intro h0; linarith
  · rw [min_eq_right h.le]

lemma availabilityWeight_bounds (a : String) :
    0 ≤ availabilityWeight a ∧ availabilityWeight a ≤ 1 := by
  unfold availabilityWeight
  by_cases h1 : a = "available"
  · rw [if_pos h1]; norm_num
  · rw [if_neg h1]
    by_cases h2 : a = "busy"
    · rw [if_pos h2]; norm_num
    · rw [if_neg h2]
      by_cases h3 : a = "unavailable"
      · rw [if_pos h3]; norm_num
      · rw [if_neg h3]; norm_num

/-- C4: every scored candidate has a composite score in `[0,1]`, and its
reasons sequence is non-empty exactly when the score is strictly
positive. -/
theorem scoreConsultant_bounds_reasons (semantic : ℚ) (kws : List String)
    (cid : String) (skills : List String) (availability : String) :
    0 ≤ (scoreConsultant semantic kws cid skills availability).score ∧
    (scoreConsultant semantic kws cid skills availability).score ≤ 1 ∧
    ((scoreConsultant semantic kws cid skills availability).reasons ≠ [] ↔
      0 < (scoreConsultant semantic kws cid skills availability).score) := by
  unfold scoreConsultant
  have hsem := clamp01_bounds semantic
  have hstr := structuredScore_bounds skills kws
  have hav := availabilityWeight_bounds availability
  simp only
  refine ⟨by linarith [hsem.1, hstr.1, hav.1], by linarith [hsem.2, hstr.2, hav.2], ?_⟩
  constructor
  · intro hne
    by_contra hle
    push_neg at hle
    have hz : (1:ℚ)/2 * clamp01 semantic + 7/20 * structuredScore skills kws
        + 3/20 * availabilityWeight availability = 0 := by
      linarith [hsem.1, hstr.1, hav.1]
    have hsem0 : clamp01 semantic = 0 := by linarith [hsem.1, hstr.1, hav.1]
    have hstr0 : structuredScore skills kws = 0 := by linarith [hsem.1, hstr.1, hav.1]
    have hav0 : availabilityWeight availability = 0 := by linarith [hsem.1, hstr.1, hav.1]
    apply hne
    rw [if_neg (by rw [hsem0]; exact lt_irrefl 0),
      if_neg (by rw [hav0]; exact lt_irrefl 0)]
    rw [(skillReasons_nil_iff skills kws).mpr
      ((structuredScore_eq_zero_iff skills kws).mp hstr0)]
    rfl
  · intro hpos hnil
    rcases List.append_eq_nil.mp hnil with ⟨hab, hc⟩
    rcases List.append_eq_nil.mp hab with ⟨ha, hb⟩
    have hsem0 : clamp01 semantic = 0 := by
      by_cases h : 0 < clamp01 semantic
      · rw [if_pos h] at ha; exact absurd ha (List.cons_ne_nil _ _)
      · linarith [hsem.1, not_lt.mp h]
    have hav0 : availabilityWeight availability = 0 := by
      by_cases h : 0 < availabilityWeight availability
      · rw [if_pos h] at hc; exact absurd hc (List.cons_ne_nil _ _)
      · linarith [hav.1, not_lt.mp h]
    have hstr0 : structuredScore skills kws = 0 :=
      (structuredScore_eq_zero_iff skills kws).mpr
        ((skillReasons_nil_iff skills kws).mp hb)
    rw [hsem0, hstr0, hav0] at hpos
    norm_num at hpos

end Matcher

namespace Matcher

instance : IsTotal (Nat × ScoredCandidate) scoreRel := by
  constructor
  intro a b
  unfold scoreRel
  rcases lt_trichotomy a.2.score b.2.score with h | h | h
  · exact Or.inr (Or.inl h)
  · rcases Nat.le_total a.1 b.1 with h2 | h2
    · exact Or.inl (Or.inr ⟨h, h2⟩)
    · exact Or.inr (Or.inr ⟨h.symm, h2⟩)
  · exact Or.inl (Or.inl h)

instance : IsTrans (Nat × ScoredCandidate) scoreRel := by
  constructor
  intro a b c hab hbc
  unfold scoreRel at *
  rcases hab with h1 | ⟨h1, h1le⟩
  · rcases hbc with h2 | ⟨h2, _⟩
    · exact Or.inl (lt_trans h2 h1)
    · exact Or.inl (h2 ▸ h1)
  · rcases hbc with h2 | ⟨h2, h2le⟩
    · exact Or.inl (h1 ▸ h2)
    · exact Or.inr ⟨h1.trans h2, h1le.trans h2le⟩

lemma enumFrom_pairwise_fst_lt {α : Type} :
    ∀ (l : List α) (n : Nat), (List.enumFrom n l).Pairwise (fun a b => a.1 < b.1) := by
  intro l
  induction l with
  | nil => intro n; exact List.Pairwise.nil
  | cons x xs ih =>
    intro n
    refine List.Pairwise.cons ?_ (ih (n + 1))
    intro y hy
    obtain ⟨i, z⟩ := y
    exact Nat.lt_of_lt_of_le (Nat.lt_succ_self n) (List.mem_enumFrom hy).1

lemma survivors_keeps {cands : List ScoredCandidate} {ic : Nat × ScoredCandidate}
    (h : ic ∈ survivors cands) : keepsBest cands ic.1 ic.2 := by
  unfold survivors at h
  exact of_decide_eq_true (List.mem_filter.mp h).2

lemma survivors_pairwise_fst_lt (cands : List ScoredCandidate) :
    (survivors cands).Pairwise (fun a b => a.1 < b.1) :=
  (enumFrom_pairwise_fst_lt cands 0).sublist (List.filter_sublist _)

lemma survivors_pairwise_ne_id (cands : List ScoredCandidate) :
    (survivors cands).Pairwise (fun a b => a.2.consultantId ≠ b.2.consultantId) := by
  refine (survivors_pairwise_fst_lt cands).imp_of_mem ?_
  intro a b ha hb hlt heq
  have ka := survivors_keeps ha
  have kb := survivors_keeps hb
  have hea : a ∈ cands.enum := List.mem_of_mem_filter ha
  have heb : b ∈ cands.enum := List.mem_of_mem_filter hb
  have h1 := ka b heb heq.symm
  have h2 := kb a hea heq
  rcases h1 with h1 | ⟨h1, h1le⟩
  · rcases h2 with h2 | ⟨h2, _⟩
    · exact absurd h2 (lt_asymm h1)
    · rw [h2] at h1; exact absurd h1 (lt_irrefl _)
  · rcases h2 with h2 | ⟨_, h2le⟩
    · rw [h1] at h2; exact absurd h2 (lt_irrefl _)
    · omega

lemma survivors_pairwise_fst_ne (cands : List ScoredCandidate) :
    (survivors cands).Pairwise (fun a b => a.1 ≠ b.1) :=
  (survivors_pairwise_fst_lt cands).imp (fun h => Nat.ne_of_lt h)

lemma rankSorted_pairwise_ne_id (cands : List ScoredCandidate) :
    (List.insertionSort scoreRel (survivors cands)).Pairwise
      (fun a b => a.2.consultantId ≠ b.2.consultantId) :=
  ((List.perm_insertionSort scoreRel (survivors cands)).pairwise_iff
    (fun h he => h he.symm)).mpr (survivors_pairwise_ne_id cands)

lemma rankSorted_pairwise_fst_ne (cands : List ScoredCandidate) :
    (List.insertionSort scoreRel (survivors cands)).Pairwise
      (fun a b => a.1 ≠ b.1) :=
  ((List.perm_insertionSort scoreRel (survivors cands)).pairwise_iff
    (fun h he => h he.symm)).mpr (survivors_pairwise_fst_ne cands)

/-- C3: the Ranker returns at most `K` entries, with no consultant id
repeated, ordered by non-increasing score with ties in strictly increasing
original insertion order; every returned entry is one of the input
candidates at its recorded original position, and when duplicates occur the
highest-scoring entry wins: a returned entry's score dominates the score of
every input candidate with the same consultant id.  The Ranker is a pure
function of its input, so two runs on identical input return the identical
list. -/
theorem rankCandidates_topK (K : Nat) (cands : List ScoredCandidate) :
    (rankCandidates K cands).length ≤ K ∧
    ((rankCandidates K cands).map (fun c => c.consultantId)).Nodup ∧
    (rankCandidates K cands).Pairwise (fun a b => b.score ≤ a.score) ∧
    (rankIndexed K cands).Pairwise
      (fun a b => a.2.score = b.2.score → a.1 < b.1) ∧
    (∀ p ∈ rankIndexed K cands, cands[p.1]? = some p.2) ∧
    (∀ p ∈ rankIndexed K cands, ∀ c ∈ cands,
      c.consultantId = p.2.consultantId → c.score ≤ p.2.score) ∧
    rankCandidates K cands = (rankIndexed K cands).map Prod.snd := by
  have hsorted := List.sorted_insertionSort scoreRel (survivors cands)
  have htake : (rankIndexed K cands).Sublist
      (List.insertionSort scoreRel (survivors cands)) := List.take_sublist _ _
  refine ⟨?_, ?_, ?_, ?_, ?_, ?_, rfl⟩
  · show ((rankIndexed K cands).map Prod.snd).length ≤ K
    rw [List.length_map]
    unfold rankIndexed
    rw [List.length_take]
    exact Nat.min_le_left _ _
  · show ((rankIndexed K cands).map Prod.snd).map (fun c => c.consultantId) |>.Nodup
    rw [List.map_map]
    exact ((rankSorted_pairwise_ne_id cands).sublist htake).map _ (fun a b h => h)
  · show ((rankIndexed K cands).map Prod.snd).Pairwise (fun a b => b.score ≤ a.score)
    rw [List.pairwise_map]
    refine ((hsorted.sublist htake).imp_of_mem ?_)
    intro a b _ _ hr
    rcases hr with h | ⟨h, _⟩
    · exact le_of_lt h
    · exact le_of_eq h.symm
  · have hcomb := (hsorted.sublist htake).and
      ((rankSorted_pairwise_fst_ne cands).sublist htake)
    refine hcomb.imp ?_
    intro a b ⟨hr, hne⟩ heq
    rcases hr with h | ⟨_, hle⟩
    · rw [heq] at h; exact absurd h (lt_irrefl _)
    · exact Nat.lt_of_le_of_ne hle hne
  · intro p hp
    have h1 : p ∈ List.insertionSort scoreRel (survivors cands) := htake.subset hp
    have h2 : p ∈ survivors cands :=
      (List.perm_insertionSort scoreRel (survivors cands)).subset h1
    have h3 : p ∈ cands.enum := List.mem_of_mem_filter h2
    exact List.mem_enum_iff_getElem?.mp h3
  · intro p hp c hc hid
    have h2 : p ∈ survivors cands :=
      (List.perm_insertionSort scoreRel (survivors cands)).subset (htake.subset hp)
    have hk := survivors_keeps h2
    rcases List.mem_iff_getElem.mp hc with ⟨n, hn, hceq⟩
    have henum : (n, c) ∈ cands.enum := by
      rw [List.mem_enum_iff_getElem?]
      rw [List.getElem?_eq_getElem hn, hceq]
    rcases hk (n, c) henum hid with h | ⟨h, _⟩
    · exact le_of_lt h
    · exact le_of_eq h

end Matcher

namespace Matcher

/-- C3 witness: at a concrete input containing a duplicate consultant id —
the positional guarantee, and the kept duplicate's score dominating the
discarded same-id entry's score. -/
theorem rankCandidates_topK_witness :
    ([ScoredCandidate.mk "a" 1 ["r1"], ScoredCandidate.mk "b" 2 ["r2"],
      ScoredCandidate.mk "a" 2 ["r3"]])[1]?
      = some (ScoredCandidate.mk "b" 2 ["r2"]) ∧
    (ScoredCandidate.mk "a" 1 ["r1"]).score ≤ (ScoredCandidate.mk "a" 2 ["r3"]).score :=
  ⟨(rankCandidates_topK 2
      [ScoredCandidate.mk "a" 1 ["r1"], ScoredCandidate.mk "b" 2 ["r2"],
        ScoredCandidate.mk "a" 2 ["r3"]]).2.2.2.2.1
    (1, ScoredCandidate.mk "b" 2 ["r2"]) (by decide),
   (rankCandidates_topK 2
      [ScoredCandidate.mk "a" 1 ["r1"], ScoredCandidate.mk "b" 2 ["r2"],
        ScoredCandidate.mk "a" 2 ["r3"]]).2.2.2.2.2.1
    (2, ScoredCandidate.mk "a" 2 ["r3"]) (by decide)
    (ScoredCandidate.mk "a" 1 ["r1"]) (by decide) rfl⟩

end Matcher

namespace Matcher

lemma assembleGo_cons (acc : List String) (role : RoleSpec)
    (cs : List ScoredCandidate) (rest : List (RoleSpec × List ScoredCandidate)) :
    assembleGo acc ((role, cs) :: rest) =
      roleEntry acc role cs :: assembleGo (nextAcc acc cs) rest := rfl

lemma pickCandidate_some_spec {acc : List String} {cs : List ScoredCandidate}
    {c : ScoredCandidate} (hf : pickCandidate acc cs = some c) :
    c.consultantId ∉ acc ∧ c ∈ cs := by
  unfold pickCandidate at hf
  refine ⟨?_, List.mem_of_find?_eq_some hf⟩
  have := List.find?_some hf
  simpa using this

lemma pickCandidate_none_spec {acc : List String} {cs : List ScoredCandidate}
    (hf : pickCandidate acc cs = none) :
    ∀ x ∈ cs, x.consultantId ∈ acc := by
  unfold pickCandidate at hf
  intro x hx
  have := List.find?_eq_none.mp hf x hx
  simpa using this

lemma roleEntry_some {acc : List String} {cs : List ScoredCandidate}
    {c : ScoredCandidate} (role : RoleSpec) (hf : pickCandidate acc cs = some c) :
    roleEntry acc role cs =
      ⟨role.title, some c, false,
        (cs.filter (fun d => d.consultantId != c.consultantId)).take 3⟩ := by
  unfold roleEntry
  rw [hf]

lemma roleEntry_none_cons {acc : List String} {c : ScoredCandidate}
    {cs' : List ScoredCandidate} (role : RoleSpec)
    (hf : pickCandidate acc (c :: cs') = none) :
    roleEntry acc role (c :: cs') = ⟨role.title, some c, true, []⟩ := by
  unfold roleEntry
  rw [hf]

lemma nextAcc_some {acc : List String} {cs : List ScoredCandidate}
    {c : ScoredCandidate} (hf : pickCandidate acc cs = some c) :
    nextAcc acc cs = c.consultantId :: acc := by
  unfold nextAcc
  rw [hf]

lemma nextAcc_none {acc : List String} {cs : List ScoredCandidate}
    (hf : pickCandidate acc cs = none) : nextAcc acc cs = acc := by
  unfold nextAcc
  rw [hf]

lemma roleEntry_nil (acc : List String) (role : RoleSpec) :
    roleEntry acc role [] = ⟨role.title, none, false, []⟩ := rfl

lemma assembleGo_length (acc : List String)
    (l : List (RoleSpec × List ScoredCandidate)) :
    (assembleGo acc l).length = l.length := by
  induction l generalizing acc with
  | nil => rfl
  | cons hd rest ih =>
    obtain ⟨role, cs⟩ := hd
    rw [assembleGo_cons, List.length_cons, List.length_cons, ih]

lemma unflaggedIds_unflagged_cons (e : RoleAssignment) (t : List RoleAssignment)
    (d : ScoredCandidate) (hf : e.repeatFlag = false) (ha : e.assigned = some d) :
    unflaggedIds (e :: t) = d.consultantId :: unflaggedIds t := by
  unfold unflaggedIds
  rw [List.filterMap_cons, hf]
  simp only [Bool.false_eq_true, if_neg, ha, Option.map_some', ite_false]

lemma unflaggedIds_skip_cons (e : RoleAssignment) (t : List RoleAssignment)
    (h : e.repeatFlag = true ∨ e.assigned = none) :
    unflaggedIds (e :: t) = unflaggedIds t := by
  unfold unflaggedIds
  rw [List.filterMap_cons]
  rcases h with h | h
  · rw [h]; rfl
  · cases hfl : e.repeatFlag
    · rw [if_neg (by simp), h]; rfl
    · rfl

lemma assembleGo_invariant :
    ∀ (l : List (RoleSpec × List ScoredCandidate)) (acc : List String) (j : Nat)
      (e : RoleAssignment), (assembleGo acc l)[j]? = some e →
      ((e.repeatFlag = false → ∀ d, e.assigned = some d →
          d.consultantId ∉ acc ∧
          d.consultantId ∉ unflaggedIds ((assembleGo acc l).take j)) ∧
       (e.repeatFlag = true → ∀ rc, l[j]? = some rc →
          (∃ d, e.assigned = some d ∧ d ∈ rc.2) ∧
          ∀ x ∈ rc.2, x.consultantId ∈ acc ∨
            x.consultantId ∈ unflaggedIds ((assembleGo acc l).take j))) := by
  intro l
  induction l with
  | nil =>
    intro acc j e he
    simp [assembleGo] at he
  | cons hd rest ih =>
    intro acc j e he
    obtain ⟨role, cs⟩ := hd
    rw [assembleGo_cons] at he ⊢
    cases hf : pickCandidate acc cs with
    | some c =>
      rw [roleEntry_some role hf, nextAcc_some hf] at he ⊢
      cases j with
      | zero =>
        rw [List.getElem?_cons_zero] at he
        have he2 := (Option.some.injEq _ _ ▸ he).symm
        subst he2
        constructor
        · intro _ d hd2
          have hd3 : c = d := by simpa using hd2
          subst hd3
          exact ⟨(pickCandidate_some_spec hf).1, by simp [unflaggedIds]⟩
        · intro hflag
          exact absurd hflag (by simp)
      | succ j' =>
        rw [List.getElem?_cons_succ] at he
        have ihr := ih (c.consultantId :: acc) j' e he
        rw [List.take_succ_cons, unflaggedIds_unflagged_cons _ _ c rfl rfl]
        constructor
        · intro hflag d hd2
          have h2 := ihr.1 hflag d hd2
          refine ⟨fun hmem => h2.1 (List.mem_cons_of_mem _ hmem), ?_⟩
          intro hmem
          rcases List.mem_cons.mp hmem with h3 | h3
          · exact h2.1 (h3 ▸ List.mem_cons_self _ _)
          · exact h2.2 h3
        · intro hflag rc hrc
          rw [List.getElem?_cons_succ] at hrc
          have h2 := ihr.2 hflag rc hrc
          refine ⟨h2.1, ?_⟩
          intro x hx
          rcases h2.2 x hx with h3 | h3
          · rcases List.mem_cons.mp h3 with h4 | h4
            · exact Or.inr (h4 ▸ List.mem_cons_self _ _)
            · exact Or.inl h4
          · exact Or.inr (List.mem_cons_of_mem _ h3)
    | none =>
      rw [nextAcc_none hf] at he ⊢
      cases cs with
      | nil =>
        rw [roleEntry_nil acc role] at he ⊢
        cases j with
        | zero =>
          rw [List.getElem?_cons_zero] at he
          have he2 := (Option.some.injEq _ _ ▸ he).symm
          subst he2
          constructor
          · intro _ d hd2
            exact absurd hd2 (by simp)
          · intro hflag
            exact absurd hflag (by simp)
        | succ j' =>
          rw [List.getElem?_cons_succ] at he
          have ihr := ih acc j' e he
          rw [List.take_succ_cons, unflaggedIds_skip_cons _ _ (Or.inr rfl)]
          constructor
          · exact ihr.1
          · intro hflag rc hrc
            rw [List.getElem?_cons_succ] at hrc
            exact ihr.2 hflag rc hrc
      | cons c cs' =>
        rw [roleEntry_none_cons role hf] at he ⊢
        cases j with
        | zero =>
          rw [List.getElem?_cons_zero] at he
          have he2 := (Option.some.injEq _ _ ▸ he).symm
          subst he2
          constructor
          · intro hflag
            exact absurd hflag (by simp)
          · intro _ rc hrc
            rw [List.getElem?_cons_zero] at hrc
            have hrc2 := (Option.some.injEq _ _ ▸ hrc).symm
            subst hrc2
            refine ⟨⟨c, rfl, List.mem_cons_self _ _⟩, ?_⟩
            intro x hx
            exact Or.inl (pickCandidate_none_spec hf x hx)
        | succ j' =>
          rw [List.getElem?_cons_succ] at he
          have ihr := ih acc j' e he
          rw [List.take_succ_cons, unflaggedIds_skip_cons _ _ (Or.inl rfl)]
          constructor
          · exact ihr.1
          · intro hflag rc hrc
            rw [List.getElem?_cons_succ] at hrc
            exact ihr.2 hflag rc hrc

end Matcher

namespace Matcher

lemma unflaggedIds_take_mem (out : List RoleAssignment) (j : Nat) (idv : String) :
    idv ∈ unflaggedIds (out.take j) ↔
      ∃ i, i < j ∧ ∃ e, out[i]? = some e ∧ e.repeatFlag = false ∧
        ∃ d, e.assigned = some d ∧ d.consultantId = idv := by
  unfold unflaggedIds
  rw [List.mem_filterMap]
  constructor
  · rintro ⟨e, hmem, hfe⟩
    rcases List.mem_iff_getElem?.mp hmem with ⟨n, hn⟩
    rw [List.getElem?_take] at hn
    by_cases hnj : n < j
    · rw [if_pos hnj] at hn
      cases hfl : e.repeatFlag with
      | true => rw [hfl] at hfe; exact absurd hfe (by simp)
      | false =>
        rw [hfl] at hfe
        simp only [Bool.false_eq_true, if_neg, ite_false] at hfe
        rcases Option.map_eq_some'.mp hfe with ⟨d, hd, hdid⟩
        exact ⟨n, hnj, e, hn, hfl, d, hd, hdid⟩
    · rw [if_neg hnj] at hn
      exact absurd hn (by simp)
  · rintro ⟨i, hij, e, hei, hfl, d, hd, hdid⟩
    refine ⟨e, ?_, ?_⟩
    · exact List.mem_iff_getElem?.mpr ⟨i, by rw [List.getElem?_take, if_pos hij]; exact hei⟩
    · rw [hfl]
      simp only [Bool.false_eq_true, if_neg, ite_false, hd, Option.map_some', hdid]

lemma unflaggedIds_take_mono (out : List RoleAssignment) {i j : Nat} (h : i ≤ j) :
    unflaggedIds (out.take i) ⊆ unflaggedIds (out.take j) := by
  have h2 : out.take i = (out.take j).take i := by
    rw [List.take_take, min_eq_left h]
  rw [h2]
  exact (List.Sublist.filterMap _ (List.take_sublist _ _)).subset

lemma find?_congr {α : Type} {p q : α → Bool} (h : ∀ a, p a = q a) :
    ∀ l : List α, l.find? p = l.find? q := by
  intro l
  induction l with
  | nil => rfl
  | cons a t ih => simp [List.find?_cons, h a, ih]

lemma contains_congr {l1 l2 : List String} (h : ∀ s, s ∈ l1 ↔ s ∈ l2)
    (s : String) : l1.contains s = l2.contains s := by
  cases h1 : l1.contains s <;> cases h2 : l2.contains s <;> try rfl
  · rw [List.contains_eq_any_beq] at h1 h2
    simp at h1 h2
    exact absurd rfl (h1 s ((h s).mpr h2))
  · rw [List.contains_eq_any_beq] at h1 h2
    simp at h1 h2
    exact absurd rfl (h2 s ((h s).mp h1))

lemma pickCandidate_congr {acc1 acc2 : List String}
    (h : ∀ s, s ∈ acc1 ↔ s ∈ acc2) (cs : List ScoredCandidate) :
    pickCandidate acc1 cs = pickCandidate acc2 cs :=
  find?_congr (fun c => by rw [contains_congr h]) cs

lemma assembleGo_entry :
    ∀ (l : List (RoleSpec × List ScoredCandidate)) (acc : List String) (j : Nat)
      (rc : RoleSpec × List ScoredCandidate), l[j]? = some rc →
      ∃ accj : List String,
        (∀ s, s ∈ accj ↔ s ∈ acc ∨ s ∈ unflaggedIds ((assembleGo acc l).take j)) ∧
        (assembleGo acc l)[j]? = some (roleEntry accj rc.1 rc.2) := by
  intro l
  induction l with
  | nil =>
    intro acc j rc hrc
    exact absurd hrc (by simp)
  | cons hd rest ih =>
    intro acc j rc hrc
    obtain ⟨role, cs⟩ := hd
    rw [assembleGo_cons]
    cases j with
    | zero =>
      rw [List.getElem?_cons_zero] at hrc
      have hrc2 := (Option.some.injEq _ _ ▸ hrc).symm
      subst hrc2
      refine ⟨acc, ?_, by rw [List.getElem?_cons_zero]⟩
      intro s
      simp [unflaggedIds]
    | succ j' =>
      rw [List.getElem?_cons_succ] at hrc
      rcases ih (nextAcc acc cs) j' rc hrc with ⟨accj, hiff, hentry⟩
      refine ⟨accj, ?_, by rw [List.getElem?_cons_succ]; exact hentry⟩
      intro s
      rw [hiff s, List.take_succ_cons]
      cases hp : pickCandidate acc cs with
      | some c =>
        rw [nextAcc_some hp, roleEntry_some role hp,
          unflaggedIds_unflagged_cons _ _ c rfl rfl]
        simp only [List.mem_cons]
        tauto
      | none =>
        rw [nextAcc_none hp]
        cases cs with
        | nil =>
          rw [roleEntry_nil acc role, unflaggedIds_skip_cons _ _ (Or.inr rfl)]
        | cons c cs' =>
          rw [roleEntry_none_cons role hp, unflaggedIds_skip_cons _ _ (Or.inl rfl)]

/-- C5: the Team Assembler never assigns a consultant to two roles while an
unassigned alternative exists: (1) it produces one assignment per role; (2)
whenever two roles receive the same consultant id, the later one is flagged
as a permitted repeat; (3) a flagged repeat happens only when every
candidate in that role's pool had already been assigned (without a flag) to
an earlier role; and (4) whenever some candidate of a role's pool is not yet
assigned to any earlier role, that role receives — unflagged — its
next-best unassigned alternate: its assigned candidate is not held by any
earlier role, and every pool candidate ranked before it was already taken by
an earlier role.  So a shared top candidate goes to exactly one role and the
other role falls through. -/
theorem assembleTeam_no_double_assignment
    (rankings : List (RoleSpec × List ScoredCandidate)) :
    (assembleTeam rankings).length = rankings.length ∧
    (∀ (i j : Nat) (ei ej : RoleAssignment) (c d : ScoredCandidate), i < j →
      (assembleTeam rankings)[i]? = some ei →
      (assembleTeam rankings)[j]? = some ej →
      ei.assigned = some c → ej.assigned = some d →
      c.consultantId = d.consultantId → ej.repeatFlag = true) ∧
    (∀ (j : Nat) (ej : RoleAssignment) (rc : RoleSpec × List ScoredCandidate),
      (assembleTeam rankings)[j]? = some ej → ej.repeatFlag = true →
      rankings[j]? = some rc →
      ∀ x ∈ rc.2, ∃ (i : Nat) (ei : RoleAssignment) (d : ScoredCandidate),
        i < j ∧ (assembleTeam rankings)[i]? = some ei ∧
        ei.repeatFlag = false ∧ ei.assigned = some d ∧
        d.consultantId = x.consultantId) ∧
    (∀ (j : Nat) (ej : RoleAssignment) (rc : RoleSpec × List ScoredCandidate),
      (assembleTeam rankings)[j]? = some ej → rankings[j]? = some rc →
      ∀ x ∈ rc.2,
        (∀ (i : Nat) (ei : RoleAssignment) (d : ScoredCandidate), i < j →
          (assembleTeam rankings)[i]? = some ei → ei.assigned = some d →
          d.consultantId ≠ x.consultantId) →
        ej.repeatFlag = false ∧
        ∃ (d : ScoredCandidate) (before after : List ScoredCandidate),
          ej.assigned = some d ∧ rc.2 = before ++ d :: after ∧
          (∀ (i : Nat) (ei : RoleAssignment) (d2 : ScoredCandidate), i < j →
            (assembleTeam rankings)[i]? = some ei → ei.assigned = some d2 →
            d2.consultantId ≠ d.consultantId) ∧
          (∀ y ∈ before, ∃ (i : Nat) (ei : RoleAssignment) (d2 : ScoredCandidate),
            i < j ∧ (assembleTeam rankings)[i]? = some ei ∧
            ei.repeatFlag = false ∧ ei.assigned = some d2 ∧
            d2.consultantId = y.consultantId)) := by
  refine ⟨assembleGo_length [] rankings, ?_, ?_, ?_⟩
  · intro i j ei ej c d hij hei hej hc hd hcd
    by_contra hflag
    have hflagf : ej.repeatFlag = false := by
      cases h : ej.repeatFlag
      · rfl
      · exact absurd h hflag
    have invj := (assembleGo_invariant rankings [] j ej hej).1 hflagf d hd
    apply invj.2
    cases hfi : ei.repeatFlag with
    | false =>
      exact (unflaggedIds_take_mem _ j _).mpr ⟨i, hij, ei, hei, hfi, c, hc, hcd⟩
    | true =>
      have hjlen : j < (assembleTeam rankings).length :=
        (List.getElem?_eq_some.mp hej).1
      have hilen : i < rankings.length := by
        have := assembleGo_length ([] : List String) rankings
        unfold assembleTeam at hjlen
        omega
      have hri : rankings[i]? = some rankings[i] := List.getElem?_eq_getElem hilen
      have invi := (assembleGo_invariant rankings [] i ei hei).2 hfi _ hri
      rcases invi.1 with ⟨d', hd', hmem⟩
      have hdc : d' = c := by
        rw [hc] at hd'
        exact Option.some.inj hd'.symm
      subst hdc
      rcases invi.2 d' hmem with h0 | h0
      · exact absurd h0 (List.not_mem_nil _)
      · have := unflaggedIds_take_mono (assembleGo [] rankings) (Nat.le_of_lt hij) h0
        rw [hcd] at this
        exact this
  · intro j ej rc hej hflag hrc x hx
    have inv := (assembleGo_invariant rankings [] j ej hej).2 hflag rc hrc
    rcases inv.2 x hx with h0 | h0
    · exact absurd h0 (List.not_mem_nil _)
    · rcases (unflaggedIds_take_mem _ j _).mp h0 with ⟨i, hij, e, hei, hf, d, hd, hdid⟩
      exact ⟨i, e, d, hij, hei, hf, hd, hdid⟩
  · intro j ej rc hej hrc x hx hnone
    rcases assembleGo_entry rankings [] j rc hrc with ⟨accj, hiff, hentry⟩
    have hej2 : (assembleGo [] rankings)[j]? = some ej := hej
    rw [hej2] at hentry
    have hejeq : ej = roleEntry accj rc.1 rc.2 := Option.some.inj hentry
    have hacc : ∀ s, s ∈ accj ↔
        s ∈ unflaggedIds ((assembleGo [] rankings).take j) := by
      intro s
      rw [hiff s]
      simp
    cases hp : pickCandidate accj rc.2 with
    | none =>
      exfalso
      have hxin : x.consultantId ∈ accj := pickCandidate_none_spec hp x hx
      rcases (unflaggedIds_take_mem _ j _).mp ((hacc _).mp hxin) with
        ⟨i, hij, e, hei, hf, d, hd, hdid⟩
      exact hnone i e d hij hei hd hdid
    | some d =>
      subst hejeq
      rw [roleEntry_some rc.1 hp]
      have hp2 := hp
      unfold pickCandidate at hp2
      rcases List.find?_eq_some.mp hp2 with ⟨hpred, before, after, heq, hall⟩
      have hdnin : d.consultantId ∉ accj := by simpa using hpred
      refine ⟨rfl, d, before, after, rfl, heq, ?_, ?_⟩
      · intro i ei d2 hij hei hd2 hcontra
        apply hdnin
        rw [hacc]
        cases hfi : ei.repeatFlag with
        | false =>
          exact (unflaggedIds_take_mem _ j _).mpr ⟨i, hij, ei, hei, hfi, d2, hd2, hcontra⟩
        | true =>
          have hjlen : j < (assembleTeam rankings).length :=
            (List.getElem?_eq_some.mp hej).1
          have hilen : i < rankings.length := by
            have := assembleGo_length ([] : List String) rankings
            unfold assembleTeam at hjlen
            omega
          have hri : rankings[i]? = some rankings[i] := List.getElem?_eq_getElem hilen
          have invi := (assembleGo_invariant rankings [] i ei hei).2 hfi _ hri
          rcases invi.1 with ⟨d3, hd3, hmem3⟩
          have hde : d3 = d2 := by
            rw [hd2] at hd3
            exact (Option.some.inj hd3).symm
          rcases invi.2 d3 hmem3 with h0 | h0
          · exact absurd h0 (List.not_mem_nil _)
          · have h1 := unflaggedIds_take_mono (assembleGo [] rankings)
              (Nat.le_of_lt hij) h0
            rw [hde, hcontra] at h1
            exact h1
      · intro y hy
        have hyb := hall y hy
        have hyin : y.consultantId ∈ accj := by simpa using hyb
        rcases (unflaggedIds_take_mem _ j _).mp ((hacc _).mp hyin) with
          ⟨i, hij, e, hei, hf, d2, hd2, hdid⟩
        exact ⟨i, e, d2, hij, hei, hf, hd2, hdid⟩

/-- C4 witness: the score bounds and the reasons/score correspondence at a
concrete scored candidate. -/
theorem scoreConsultant_bounds_reasons_witness :
    0 ≤ (scoreConsultant 1 ["react"] "c1" ["React"] "available").score ∧
    (scoreConsultant 1 ["react"] "c1" ["React"] "available").score ≤ 1 ∧
    ((scoreConsultant 1 ["react"] "c1" ["React"] "available").reasons ≠ [] ↔
      0 < (scoreConsultant 1 ["react"] "c1" ["React"] "available").score) :=
  scoreConsultant_bounds_reasons 1 ["react"] "c1" ["React"] "available"

/-- C5 witness: a two-role request sharing a single candidate pool forces a
flagged repeat on the second role (while the assembler still returns one
assignment per role), and when the second role's pool holds an unassigned
alternate the assembler assigns it, unflagged. -/
theorem assembleTeam_no_double_assignment_witness :
    (assembleTeam
        [(RoleSpec.mk "Frontend" ["react"], [ScoredCandidate.mk "X" 1 ["r"]]),
         (RoleSpec.mk "Backend" ["python"], [ScoredCandidate.mk "X" 1 ["r"]])]).length = 2 ∧
    (RoleAssignment.mk "Backend" (some (ScoredCandidate.mk "X" 1 ["r"])) true []).repeatFlag
      = true ∧
    (RoleAssignment.mk "Backend" (some (ScoredCandidate.mk "Y" 1 ["r"])) false
        [ScoredCandidate.mk "X" 2 ["r"]]).repeatFlag = false :=
  ⟨((assembleTeam_no_double_assignment
      [(RoleSpec.mk "Frontend" ["react"], [ScoredCandidate.mk "X" 1 ["r"]]),
       (RoleSpec.mk "Backend" ["python"], [ScoredCandidate.mk "X" 1 ["r"]])]).1).trans rfl,
    (assembleTeam_no_double_assignment
      [(RoleSpec.mk "Frontend" ["react"], [ScoredCandidate.mk "X" 1 ["r"]]),
       (RoleSpec.mk "Backend" ["python"], [ScoredCandidate.mk "X" 1 ["r"]])]).2.1
      0 1
      (RoleAssignment.mk "Frontend" (some (ScoredCandidate.mk "X" 1 ["r"])) false [])
      (RoleAssignment.mk "Backend" (some (ScoredCandidate.mk "X" 1 ["r"])) true [])
      (ScoredCandidate.mk "X" 1 ["r"]) (ScoredCandidate.mk "X" 1 ["r"])
      (by decide) (by decide) (by decide) rfl rfl rfl,
    ((assembleTeam_no_double_assignment
      [(RoleSpec.mk "Frontend" ["react"], [ScoredCandidate.mk "X" 2 ["r"]]),
       (RoleSpec.mk "Backend" ["python"],
         [ScoredCandidate.mk "X" 2 ["r"], ScoredCandidate.mk "Y" 1 ["r"]])]).2.2.2
      1
      (RoleAssignment.mk "Backend" (some (ScoredCandidate.mk "Y" 1 ["r"])) false
        [ScoredCandidate.mk "X" 2 ["r"]])
      (RoleSpec.mk "Backend" ["python"],
        [ScoredCandidate.mk "X" 2 ["r"], ScoredCandidate.mk "Y" 1 ["r"]])
      (by decide) (by decide)
      (ScoredCandidate.mk "Y" 1 ["r"]) (by decide)
      (by
        intro i ei d hi h1 h2
        have hi0 : i = 0 := by omega
        subst hi0
        rw [show (assembleTeam
            [(RoleSpec.mk "Frontend" ["react"], [ScoredCandidate.mk "X" 2 ["r"]]),
             (RoleSpec.mk "Backend" ["python"],
               [ScoredCandidate.mk "X" 2 ["r"], ScoredCandidate.mk "Y" 1 ["r"]])])[0]?
            = some (RoleAssignment.mk "Frontend"
                (some (ScoredCandidate.mk "X" 2 ["r"])) false []) from rfl] at h1
        have hei : RoleAssignment.mk "Frontend"
            (some (ScoredCandidate.mk "X" 2 ["r"])) false [] = ei :=
          Option.some.inj h1
        subst hei
        have hd : ScoredCandidate.mk "X" 2 ["r"] = d := Option.some.inj h2
        subst hd
        decide)).1⟩

end Matcher
